import Mathlib

/-!
Verification development for the GO-REDIS storage and execution engine.

The Go sources are embedded shallowly: pure functions become Lean functions,
machine integers become Nat with explicit reduction mod 2^32 where the Go
code relies on uint32 wrap-around, Go maps become association lists with
Go-map semantics (update in place, delete the unique entry), and stateful
code threads an explicit state value.  Every definition carries a comment
naming the Go function it is translated from.
-/

namespace GoRedis

/-! ## Association lists with Go-map semantics

Go maps are modelled as association lists whose keys are kept unique by the
operations themselves: `aPut` overwrites in place, `aDel` deletes the entry.
-/

/-- Lookup in an association list (Go `m[key]`, returning the ok flag as
an Option). -/
def aGet {α : Type} (l : List (String × α)) (k : String) : Option α :=
  match l with
  | [] => none
  | (k1, v) :: t => if k1 = k then some v else aGet t k

/-- Insert-or-update (Go `m[key] = val`). -/
def aPut {α : Type} (l : List (String × α)) (k : String) (v : α) :
    List (String × α) :=
  match l with
  | [] => [(k, v)]
  | (k1, v1) :: t => if k1 = k then (k, v) :: t else (k1, v1) :: aPut t k v

/-- Delete (Go `delete(m, key)`); removes the first entry, which is the only
one when keys are unique. -/
def aDel {α : Type} (l : List (String × α)) (k : String) :
    List (String × α) :=
  match l with
  | [] => []
  | (k1, v1) :: t => if k1 = k then t else (k1, v1) :: aDel t k

/-- The keys of an association list. -/
def aKeys {α : Type} (l : List (String × α)) : List String :=
  l.map Prod.fst

/-! ## FNV hashing and shard selection

From src/datastruct/dict/concurrent.go.  Go strings are byte strings; keys
are modelled at the byte level as lists of byte values, and `strBytes`
injects Lean strings (for the ASCII keys used in concrete inputs).
-/

/-- FNV offset basis (concurrent.go line 30). -/
def fnvBasis : Nat := 2166136261

/-- FNV prime (concurrent.go `prime32`). -/
def fnvPrime : Nat := 16777619

/-- One iteration of the Go loop body in `fnv32`: the source multiplies the
accumulator by the prime FIRST and xors the byte SECOND
(`hash *= prime32; hash ^= uint32(key[i])`). -/
def fnvStep (h : Nat) (b : Nat) : Nat :=
  ((h * fnvPrime) % 2 ^ 32) ^^^ b

/-- `fnv32` from concurrent.go (identical code in lock_map.go): iterate
`fnvStep` over the bytes of the key, starting from the offset basis. -/
def fnv32 (key : List Nat) : Nat :=
  go fnvBasis key
where
  /-- The `for i := 0; i < len(key); i++` loop of `fnv32`. -/
  go : Nat → List Nat → Nat
  | h, [] => h
  | h, b :: t => go (fnvStep h b) t

/-- Byte view of an ASCII Lean string (Go strings are byte slices; all keys
appearing in concrete inputs below are ASCII, where code points and bytes
coincide). -/
def strBytes (s : String) : List Nat :=
  s.data.map Char.toNat

/-- `ConcurrentDict.spread` (concurrent.go lines 104-114): a one-shard table
returns index 0 outright, otherwise the FNV hash is masked with
`tableSize - 1`.  `shards` is `len(dict.table)`. -/
def spread (shards : Nat) (key : List Nat) : Nat :=
  if shards = 1 then 0
  else (shards - 1) &&& fnv32 key

/-- FNV-1a as the claim words it: xor each byte into the accumulator, THEN
multiply by the prime.  Written from the spec sentence, for comparison with
the source's `fnv32`. -/
def fnv1aSpec (key : List Nat) : Nat :=
  key.foldl (fun h b => ((h ^^^ b) * fnvPrime) % 2 ^ 32) fnvBasis

/-! ## Shard-count computation

`computeCapacity` and `MakeConcurrent` from concurrent.go lines 47-90.
The Go `n < 0` guard inside `computeCapacity` is unreachable for the
int range considered here (param is at least 17 in that branch and the
smearing of a nonnegative int stays nonnegative), so it is not modelled.
-/

/-- The bit-smearing cascade of `computeCapacity`: or-in right-shifts by
1, 2, 4, 8, 16. -/
def smear (n : Nat) : Nat :=
  let n1 := n ||| n >>> 1
  let n2 := n1 ||| n1 >>> 2
  let n3 := n2 ||| n2 >>> 4
  let n4 := n3 ||| n3 >>> 8
  let n5 := n4 ||| n4 >>> 16
  n5

/-- `computeCapacity` (concurrent.go lines 47-61). -/
def computeCapacity (param : Nat) : Nat :=
  if param ≤ 16 then 16
  else smear (param - 1) + 1

/-- Number of shards allocated by `MakeConcurrent` (concurrent.go lines
64-90): a requested count of exactly 1 short-circuits to a single shard,
any other request goes through `computeCapacity`. -/
def makeConcurrentShards (shardCount : Nat) : Nat :=
  if shardCount = 1 then 1
  else computeCapacity shardCount

/-! ## Lock index computation

Two implementations exist in the source.  `ConcurrentDict.toLockIndices`
(concurrent.go lines 163-180) collects the distinct shard indices of the
keys and sorts them.  `Locks.toLockIndices` (lock_map.go lines 72-91)
builds the same `indexMap` but never copies its entries into the `indices`
slice: `indices` is created empty (`make([]uint32, 0, len(indexMap))`),
immediately sorted, and returned, so the function returns the empty slice
for every input.
-/

/-- Ascending insertion sort on Nat (deterministic stand-in for Go's
`sort.Slice` with an ascending comparator). -/
def sortAsc (l : List Nat) : List Nat :=
  l.foldr insertAsc []
where
  insertAsc (x : Nat) : List Nat → List Nat
  | [] => [x]
  | y :: t => if x ≤ y then x :: y :: t else y :: insertAsc x t

/-- `ConcurrentDict.toLockIndices` (concurrent.go): distinct shard indices
of the keys, ascending when `reverse` is false, descending when true. -/
def dictToLockIndices (shards : Nat) (keys : List String) (reverse : Bool) :
    List Nat :=
  let distinct := (keys.map (fun k => spread shards (strBytes k))).dedup
  if reverse then (sortAsc distinct).reverse else sortAsc distinct

/-- The lock actions performed by `ConcurrentDict.RWLocks` (concurrent.go
lines 183-200), in order: each acquired shard index paired with `true` for
an exclusive (write) lock and `false` for a shared (read) lock. -/
def dictRWLocksActions (shards : Nat) (writeKeys readKeys : List String) :
    List (Nat × Bool) :=
  let indices := dictToLockIndices shards (writeKeys ++ readKeys) false
  let writeSet := writeKeys.map (fun k => spread shards (strBytes k))
  indices.map (fun i => (i, i ∈ writeSet))

/-- The unlock actions performed by `ConcurrentDict.RWUnLocks`
(concurrent.go lines 203-220). -/
def dictRWUnLocksActions (shards : Nat) (writeKeys readKeys : List String) :
    List (Nat × Bool) :=
  let indices := dictToLockIndices shards (writeKeys ++ readKeys) true
  let writeSet := writeKeys.map (fun k => spread shards (strBytes k))
  indices.map (fun i => (i, i ∈ writeSet))

/-- `Locks.toLockIndices` (lock_map.go lines 72-91): the function fills
`indexMap` from the keys but the loop copying `indexMap` into `indices` is
absent from the source, so the returned slice is the sorted empty slice,
i.e. always empty. -/
def lockToLockIndices (shards : Nat) (keys : List String) (reverse : Bool) :
    List Nat :=
  let indexMap := (keys.map (fun k => spread shards (strBytes k))).dedup
  let indices : List Nat := []
  let _ := indexMap
  let _ := reverse
  indices

/-- The lock actions performed by `Locks.RWLock` (lock_map.go lines
93-112): it iterates over `lockToLockIndices` of all keys. -/
def lockRWLockActions (shards : Nat) (readKeys writeKeys : List String) :
    List (Nat × Bool) :=
  let indices := lockToLockIndices shards (readKeys ++ writeKeys) false
  let writeSet := lockToLockIndices shards writeKeys true
  indices.map (fun i => (i, i ∈ writeSet))

/-! ## Facts about the hashing layer (claims C2, C4, C5) -/

/-- The inner loop of `fnv32` is a left fold of `fnvStep`. -/
lemma fnv32_go_foldl (l : List Nat) : ∀ h, fnv32.go h l = l.foldl fnvStep h := by
  induction l with
  | nil => intro h; rfl
  | cons b t ih => intro h; simp [fnv32.go, ih, List.foldl]

/-- `Locks.toLockIndices` returns the empty slice on every input: the
source never copies the collected `indexMap` entries into `indices`. -/
lemma lockToLockIndices_empty (shards : Nat) (keys : List String)
    (reverse : Bool) : lockToLockIndices shards keys reverse = [] := rfl

/-- C4, counterexample.  The shard index of key "a" in a 16-shard table is
14 under the source's hash (multiply by the prime, then xor the byte),
whereas the FNV-1a hash described by the claim (xor first, then multiply)
gives 12 after masking; so the claim's formula does not compute the shard
index the code uses. -/
theorem C4_counterexample :
    spread 16 (strBytes "a") ≠ fnv1aSpec (strBytes "a") &&& (16 - 1) := by
  decide

/-- C4 (amended): for every shard count S and key, the shard index chosen
by `ConcurrentDict.spread` equals the FNV-1 hash of the key (multiply the
accumulator by the FNV prime 16777619, THEN xor the byte, starting from
offset basis 2166136261, all modulo 2^32) masked with S−1. -/
theorem C4_spread_is_fnv1_masked (shards : Nat) (key : List Nat) :
    spread shards key =
      (key.foldl (fun h b => ((h * 16777619) % 2 ^ 32) ^^^ b) 2166136261)
        &&& (shards - 1) := by
  have hf : fnv32 key = key.foldl fnvStep fnvBasis := fnv32_go_foldl key fnvBasis
  unfold spread
  by_cases h1 : shards = 1
  · simp [h1, Nat.and_zero]
  · simp only [h1, if_false, hf, fnvStep, fnvBasis, fnvPrime]
    exact Nat.and_comm _ _

/-- Bits of an or-with-shift accumulator: if bit j of x sees the
disjunction of bits j..j+w-1 of m, then bit j of `x ||| x >>> w` sees the
disjunction of bits j..j+2w-1 of m. -/
lemma smearWindowStep (v : Nat) {m x : Nat} {w : Nat} (hv : v = 2 * w)
    (hx : ∀ j, x.testBit j = true ↔ ∃ t, t < w ∧ m.testBit (j + t) = true) :
    ∀ j, (x ||| x >>> w).testBit j = true ↔
      ∃ t, t < v ∧ m.testBit (j + t) = true := by
  subst hv
  intro j
  rw [Nat.testBit_or, Nat.testBit_shiftRight, Bool.or_eq_true, hx, hx]
  constructor
  · rintro (⟨t, ht, hb⟩ | ⟨t, ht, hb⟩)
    · exact ⟨t, by omega, hb⟩
    · exact ⟨w + t, by omega, by rwa [show j + (w + t) = w + j + t by omega]⟩
  · rintro ⟨t, ht, hb⟩
    by_cases h : t < w
    · exact Or.inl ⟨t, h, hb⟩
    · exact Or.inr ⟨t - w, by omega,
        by rwa [show w + j + (t - w) = j + t by omega]⟩

/-- Bit j of `smear m` is the disjunction of bits j..j+31 of m. -/
lemma smear_testBit (m : Nat) :
    ∀ j, (smear m).testBit j = true ↔
      ∃ t, t < 32 ∧ m.testBit (j + t) = true := by
  have h1 : ∀ j, m.testBit j = true ↔ ∃ t, t < 1 ∧ m.testBit (j + t) = true := by
    intro j
    constructor
    · intro h; exact ⟨0, by omega, by simpa using h⟩
    · rintro ⟨t, ht, hb⟩
      have ht0 : t = 0 := by omega
      simpa [ht0] using hb
  have h2 := smearWindowStep 2 (by norm_num) h1
  have h4 := smearWindowStep 4 (by norm_num) h2
  have h8 := smearWindowStep 8 (by norm_num) h4
  have h16 := smearWindowStep 16 (by norm_num) h8
  have h32 := smearWindowStep 32 (by norm_num) h16
  intro j
  simpa [smear] using h32 j

/-- The most significant bit of a positive number is set. -/
lemma testBit_msb {m : Nat} (hm : 0 < m) : m.testBit (m.size - 1) = true := by
  have hpos : 0 < m.size := Nat.size_pos.mpr hm
  have hle : 2 ^ (m.size - 1) ≤ m := Nat.lt_size.mp (by omega)
  have hlt : m < 2 ^ m.size := Nat.lt_size_self m
  have he : m.size - 1 + 1 = m.size := by omega
  have hpow : 2 ^ (m.size - 1) * 2 = 2 ^ m.size := by
    rw [← pow_succ, he]
  have hdiv : m / 2 ^ (m.size - 1) = 1 := by
    apply Nat.div_eq_of_lt_le
    · simpa using hle
    · omega
  rw [Nat.testBit_to_div_mod, hdiv]
  rfl

/-- For 0 < m < 2^32, the or-shift cascade fills every bit below the most
significant one: `smear m = 2 ^ m.size - 1`. -/
lemma smear_eq (m : Nat) (hm : 0 < m) (hub : m < 2 ^ 32) :
    smear m = 2 ^ m.size - 1 := by
  have h32 : m.size ≤ 32 := Nat.size_le.mpr hub
  apply Nat.eq_of_testBit_eq
  intro j
  rw [Nat.testBit_two_pow_sub_one]
  by_cases hj : j < m.size
  · have hmsb : m.testBit (m.size - 1) = true := testBit_msb hm
    have hbit : (smear m).testBit j = true := by
      rw [smear_testBit]
      exact ⟨m.size - 1 - j, by omega,
        by rwa [show j + (m.size - 1 - j) = m.size - 1 by omega]⟩
    simp [hbit, hj]
  · have hbit : (smear m).testBit j = false := by
      cases hb : (smear m).testBit j with
      | false => rfl
      | true =>
        obtain ⟨t, ht, htb⟩ := (smear_testBit m j).mp hb
        have hlt2 : m < 2 ^ (j + t) :=
          lt_of_lt_of_le (Nat.lt_size_self m)
            (Nat.pow_le_pow_right (by norm_num) (by omega))
        rw [Nat.testBit_lt_two_pow hlt2] at htb
        exact absurd htb (by simp)
    simp [hbit, hj]

/-- Executable power-of-two test (a power of two has no bit in common with
its predecessor), used to state C5. -/
def isPow2 (n : Nat) : Bool := n != 0 && (n &&& (n - 1) == 0)

/-- A power of two passes `isPow2`. -/
lemma isPow2_pow (k : Nat) : isPow2 (2 ^ k) = true := by
  have hand : 2 ^ k &&& (2 ^ k - 1) = 0 := by
    apply Nat.eq_of_testBit_eq
    intro i
    rw [Nat.testBit_and, Nat.testBit_two_pow, Nat.testBit_two_pow_sub_one,
      Nat.zero_testBit]
    by_cases h : k = i
    · subst h; simp
    · simp [h]
  have hne : (2 : Nat) ^ k ≠ 0 := Nat.pos_iff_ne_zero.mp (Nat.pos_pow_of_pos k (by norm_num))
  simp [isPow2, hand, hne]

/-- C5, counterexample: `MakeConcurrent` called with a requested capacity
of 1 takes the dedicated one-shard branch and allocates a single shard,
not the 16 the claim states. -/
theorem C5_counterexample : makeConcurrentShards 1 < 16 := by decide

/-- C5 (amended): for every requested capacity other than 1 (up to the
32-bit range the smearing in `computeCapacity` supports), the shard count
S is a power of two, at least 16 and at least the requested capacity, and
minimal with these properties (either exactly 16, or below twice the
request).  A request of exactly 1 instead yields a single shard
(`C5_counterexample`). -/
theorem C5_shards_least_pow2_ge16 (n : Nat) (hne : n ≠ 1)
    (hub : n ≤ 2 ^ 31) :
    isPow2 (makeConcurrentShards n) = true ∧
    16 ≤ makeConcurrentShards n ∧
    n ≤ makeConcurrentShards n ∧
    (makeConcurrentShards n = 16 ∨ makeConcurrentShards n < 2 * n) := by
  unfold makeConcurrentShards computeCapacity
  rw [if_neg hne]
  by_cases hsmall : n ≤ 16
  · rw [if_pos hsmall]
    refine ⟨by decide, le_refl _, hsmall, Or.inl rfl⟩
  · rw [if_neg hsmall]
    have hm : 0 < n - 1 := by omega
    have hub2 : n - 1 < 2 ^ 32 := by
      have : (2 : Nat) ^ 31 < 2 ^ 32 := by norm_num
      omega
    have hs := smear_eq (n - 1) hm hub2
    have hp1 : 0 < 2 ^ (n - 1).size := Nat.pos_pow_of_pos _ (by norm_num)
    have hsum : smear (n - 1) + 1 = 2 ^ (n - 1).size := by omega
    rw [hsum]
    have hlo : 2 ^ ((n - 1).size - 1) ≤ n - 1 := by
      have hpos : 0 < (n - 1).size := Nat.size_pos.mpr hm
      exact Nat.lt_size.mp (by omega)
    have hhi : n - 1 < 2 ^ (n - 1).size := Nat.lt_size_self _
    refine ⟨isPow2_pow _, ?_, by omega, Or.inr ?_⟩
    · have h16 : (4 : Nat) < (n - 1).size := Nat.lt_size.mpr (by omega)
      calc (16 : Nat) = 2 ^ 4 := by norm_num
      _ ≤ 2 ^ (n - 1).size := Nat.pow_le_pow_right (by norm_num) (by omega)
    · have hse : (n - 1).size - 1 + 1 = (n - 1).size :=
        by have := Nat.size_pos.mpr hm; omega
      have hdouble : 2 ^ (n - 1).size ≤ 2 * (n - 1) := by
        calc 2 ^ (n - 1).size = 2 ^ ((n - 1).size - 1 + 1) := by rw [hse]
        _ = 2 ^ ((n - 1).size - 1) * 2 := pow_succ 2 _
        _ ≤ 2 * (n - 1) := by omega
      omega

/-- C5, witness for the amended statement at requested capacity 17. -/
theorem C5_shards_witness :
    ((17 : Nat) ≠ 1 ∧ (17 : Nat) ≤ 2 ^ 31) ∧
    (isPow2 (makeConcurrentShards 17) = true ∧
      16 ≤ makeConcurrentShards 17 ∧
      17 ≤ makeConcurrentShards 17 ∧
      (makeConcurrentShards 17 = 16 ∨ makeConcurrentShards 17 < 2 * 17)) :=
  ⟨⟨by decide, by decide⟩, C5_shards_least_pow2_ge16 17 (by decide) (by decide)⟩

/-- C2: the Lock Manager's `Locks.RWLock` acquires no locks at all, on any
input: `toLockIndices` never transfers the collected shard indices into
its result slice, so the acquisition loop iterates over an empty slice.
At the concrete input readKeys = ["a"], writeKeys = [] the claim requires
the single shared lock on shard 14 of 16 (as `ConcurrentDict.RWLocks`,
the parallel implementation, indeed takes); the Lock Manager takes none.
Evaluations of both implementations at concrete inputs exhibit this. -/
theorem C2_lock_manager_locks_nothing :
    lockRWLockActions 16 ["a"] [] = [] ∧
    lockRWLockActions 16 ["a"] ["b"] = [] ∧
    dictRWLocksActions 16 [] ["a"] = [(14, false)] ∧
    dictRWLocksActions 16 ["b"] ["a"] = [(13, true), (14, false)] := by
  decide

/-! ## Sorted set and skiplist

From src/datastruct/sortedset/{sortedset.go, skiplist.go}.  The skiplist is
embedded by its level-0 chain: the higher levels and their spans are
navigation shortcuts that carry no membership information (every node is
linked at level 0, and at level 0 every span is 1), so the operations below
mirror exactly the level-0 effect of the source's walks.  The randomly
drawn insertion level (`randomLevel`) only decides how many navigation
levels a node participates in.
-/

/-- `Element` (skiplist.go lines 13-16).  Scores are float64 in Go but
enter every operation modelled here only through comparison and equality,
so they are embedded as integers. -/
structure Element where
  member : String
  score : Int
deriving DecidableEq, Repr

/-- The skiplist ordering (score, then member, lexicographic tiebreak):
the strict comparison used by the search loops of `insert`, `remove` and
`getRank`. -/
def eltLt (a b : Element) : Prop :=
  a.score < b.score ∨ (a.score = b.score ∧ a.member < b.member)

instance : DecidableRel eltLt := fun a b => by
  unfold eltLt
  infer_instance

lemma eltLt_irrefl (a : Element) : ¬ eltLt a a := by
  simp [eltLt]

lemma eltLt_trans {a b c : Element} (h1 : eltLt a b) (h2 : eltLt b c) :
    eltLt a c := by
  rcases h1 with h1 | ⟨h1, h1m⟩ <;> rcases h2 with h2 | ⟨h2, h2m⟩
  · exact Or.inl (lt_trans h1 h2)
  · exact Or.inl (h2 ▸ h1)
  · exact Or.inl (h1 ▸ h2)
  · exact Or.inr ⟨h1.trans h2, lt_trans h1m h2m⟩

lemma eltLt_trichotomy (a b : Element) : eltLt a b ∨ a = b ∨ eltLt b a := by
  rcases lt_trichotomy a.score b.score with h | h | h
  · exact Or.inl (Or.inl h)
  · rcases lt_trichotomy a.member b.member with h2 | h2 | h2
    · exact Or.inl (Or.inr ⟨h, h2⟩)
    · refine Or.inr (Or.inl ?_)
      cases a; cases b; simp_all
    · exact Or.inr (Or.inr (Or.inr ⟨h.symm, h2⟩))
  · exact Or.inr (Or.inr (Or.inl h))

/-- Modelled from the spec: the `Border` type (sortedset/border.go is not
under src/; only its uses are).  Spec section 4.3: a Border is either
{score, exclusive?} or {member, exclusive?} with plus/minus infinity
sentinels. -/
inductive Border where
  | scoreB (v : Int) (exclude : Bool)
  | scoreNegInf
  | scorePosInf
  | lexB (m : String) (exclude : Bool)
  | lexNegInf
  | lexPosInf
deriving DecidableEq, Repr

/-- Modelled from the spec: `Border.less(e)` implements "border < element"
accounting for exclusivity. -/
def bLess : Border → Element → Bool
  | .scoreB v true, e => decide (v < e.score)
  | .scoreB v false, e => decide (v ≤ e.score)
  | .scoreNegInf, _ => true
  | .scorePosInf, _ => false
  | .lexB m true, e => decide (m < e.member)
  | .lexB m false, e => decide (m ≤ e.member)
  | .lexNegInf, _ => true
  | .lexPosInf, _ => false

/-- Modelled from the spec: `Border.greater(e)` implements
"border > element" accounting for exclusivity. -/
def bGreater : Border → Element → Bool
  | .scoreB v true, e => decide (e.score < v)
  | .scoreB v false, e => decide (e.score ≤ v)
  | .scoreNegInf, _ => false
  | .scorePosInf, _ => true
  | .lexB m true, e => decide (e.member < m)
  | .lexB m false, e => decide (e.member ≤ m)
  | .lexNegInf, _ => false
  | .lexPosInf, _ => true

/-- Modelled from the spec: `min.isIntersected(max)` detects an empty
range (spec: `hasInRange` trivially returns false when min and max are
disjoint).  Mixed score/lex borders never occur together in the source. -/
def isIntersected : Border → Border → Bool
  | .scoreNegInf, _ => false
  | _, .scorePosInf => false
  | .scorePosInf, _ => true
  | _, .scoreNegInf => true
  | .lexNegInf, _ => false
  | _, .lexPosInf => false
  | .lexPosInf, _ => true
  | _, .lexNegInf => true
  | .scoreB a ea, .scoreB b eb => decide (b < a) || (a == b && (ea || eb))
  | .lexB a ea, .lexB b eb => decide (b < a) || (a == b && (ea || eb))
  | _, _ => false

/-- `scoreNegativeInfBorder` from border.go (modelled from the spec). -/
def scoreNegativeInfBorder : Border := .scoreNegInf

/-- `scorePositiveInfBorder` from border.go (modelled from the spec). -/
def scorePositiveInfBorder : Border := .scorePosInf

/-- `skiplist.insert` (skiplist.go lines 203-254) on the level-0 chain:
the search walks past all nodes strictly below (score, member) and the
new node is spliced in there. -/
def slInsert (l : List Element) (e : Element) : List Element :=
  match l with
  | [] => [e]
  | h :: t => if eltLt h e then h :: slInsert t e else e :: h :: t

/-- `skiplist.remove` (skiplist.go lines 178-201) on the level-0 chain:
walk past nodes strictly below (score, member); if the next node matches
both score and member exactly, unlink it, otherwise do nothing. -/
def slRemove (l : List Element) (score : Int) (member : String) :
    List Element :=
  match l with
  | [] => []
  | h :: t =>
    if eltLt h (⟨member, score⟩ : Element) then h :: slRemove t score member
    else if h = (⟨member, score⟩ : Element) then t
    else h :: t

/-- The search phase of `skiplist.RemoveRange` (skiplist.go lines
287-295): at level 0 the walk consumes nodes until the next one satisfies
`min.less`.  Returns (consumed prefix, remainder). -/
def srrSkip (min : Border) : List Element → List Element × List Element
  | [] => ([], [])
  | h :: t =>
    if bLess min h then ([], h :: t)
    else
      let (p, r) := srrSkip min t
      (h :: p, r)

/-- The removal loop of `skiplist.RemoveRange` (skiplist.go lines
301-313): remove nodes while `max.greater` holds, stopping after `limit`
removals when `limit > 0`.  `cnt` is the number removed so far.  Returns
(removed, untouched suffix). -/
def srrLoop (max : Border) (limit : Nat) :
    List Element → Nat → List Element × List Element
  | [], _ => ([], [])
  | h :: t, cnt =>
    if !(bGreater max h) then ([], h :: t)
    else if limit > 0 && cnt + 1 == limit then ([h], t)
    else
      let (r, rest) := srrLoop max limit t (cnt + 1)
      (h :: r, rest)

/-- `skiplist.RemoveRange` (skiplist.go lines 282-315): returns
(removed elements in order, remaining chain). -/
def slRemoveRange (l : List Element) (min max : Border) (limit : Nat) :
    List Element × List Element :=
  let p := srrSkip min l
  let q := srrLoop max limit p.2 0
  (q.1, p.1 ++ q.2)

/-- The search phase of `skiplist.RemoveRangeByRank` (skiplist.go lines
323-330): at level 0 (every span is 1) the walk consumes nodes while
`i + 1 < start`, `i` counting consumed nodes.  Returns (consumed prefix,
remainder, final i). -/
def srbrSearch (start : Int) :
    List Element → Int → List Element × List Element × Int
  | [], i => ([], [], i)
  | h :: t, i =>
    if i + 1 < start then
      let (p, r, j) := srbrSearch start t (i + 1)
      (h :: p, r, j)
    else ([], h :: t, i)

/-- The removal loop of `skiplist.RemoveRangeByRank` (skiplist.go lines
336-343): remove while the iterator rank `i` is below `stop`. -/
def srbrLoop (stop : Int) :
    List Element → Int → List Element × List Element
  | [], _ => ([], [])
  | h :: t, i =>
    if i < stop then
      let (r, rest) := srbrLoop stop t (i + 1)
      (h :: r, rest)
    else ([], h :: t)

/-- `skiplist.RemoveRangeByRank` (skiplist.go lines 317-345): 1-based
inclusive start, exclusive stop.  Returns (removed, remaining chain). -/
def slRemoveRangeByRank (l : List Element) (start stop : Int) :
    List Element × List Element :=
  let p := srbrSearch start l 0
  let q := srbrLoop stop p.2.1 (p.2.2 + 1)
  (q.1, p.1 ++ q.2)

/-- `skiplist.hasInRange` (skiplist.go lines 98-113): empty-range test via
`isIntersected`, then the tail must be above min and the head below max. -/
def hasInRange (l : List Element) (min max : Border) : Bool :=
  if isIntersected min max then false
  else
    match l.getLast?, l.head? with
    | some tl, some hd => bLess min tl && bGreater max hd
    | _, _ => false

/-- `skiplist.getFirstInRange` (skiplist.go lines 114-132): guard with
`hasInRange`, walk past nodes not above min, check the candidate against
max. -/
def getFirstInRange (l : List Element) (min max : Border) : Option Element :=
  if !hasInRange l min max then none
  else
    match l.dropWhile (fun e => !(bLess min e)) with
    | [] => none
    | h :: _ => if !(bGreater max h) then none else some h

/-- `SortedSet` (sortedset.go lines 9-12): the skiplist (level-0 chain)
plus the member-to-element Go map (value part: the score). -/
structure SortedSetM where
  list : List Element
  dict : List (String × Int)
deriving DecidableEq, Repr

/-- `SortedSet.Add` (sortedset.go lines 43-60): always overwrite the map
entry; if the member existed with a different score, remove-then-insert in
the skiplist; if it is new, insert.  Returns true when the member is new. -/
def ssAdd (s : SortedSetM) (member : String) (score : Int) :
    SortedSetM × Bool :=
  match aGet s.dict member with
  | some old =>
    let d := aPut s.dict member score
    if score ≠ old then
      (⟨slInsert (slRemove s.list old member) ⟨member, score⟩, d⟩, false)
    else (⟨s.list, d⟩, false)
  | none =>
    (⟨slInsert s.list ⟨member, score⟩, aPut s.dict member score⟩, true)

/-- `SortedSet.Remove` (sortedset.go lines 33-41): coherent removal from
both structures when the member is present. -/
def ssRemove (s : SortedSetM) (member : String) : SortedSetM × Bool :=
  match aGet s.dict member with
  | some sc => (⟨slRemove s.list sc member, aDel s.dict member⟩, true)
  | none => (s, false)

/-- Delete the members of the removed elements from the map (the `for _,
element := range removed { delete(sortedSet.dict, element.Member) }` loops
of sortedset.go). -/
def dictDelAll (d : List (String × Int)) (removed : List Element) :
    List (String × Int) :=
  removed.foldl (fun d1 e => aDel d1 e.member) d

/-- `SortedSet.RemoveRange` (sortedset.go lines 204-210). -/
def ssRemoveRange (s : SortedSetM) (min max : Border) : SortedSetM × Nat :=
  let (removed, kept) := slRemoveRange s.list min max 0
  (⟨kept, dictDelAll s.dict removed⟩, removed.length)

/-- `SortedSet.RemoveByRank` (sortedset.go lines 212-218): shifts the
0-based inclusive/exclusive range to the skiplist's 1-based one. -/
def ssRemoveByRank (s : SortedSetM) (start stop : Int) : SortedSetM × Nat :=
  let (removed, kept) := slRemoveRangeByRank s.list (start + 1) (stop + 1)
  (⟨kept, dictDelAll s.dict removed⟩, removed.length)

/-- `SortedSet.PopMin` (sortedset.go lines 220-236): find the minimum
element, then remove up to `count` elements from its score upward. -/
def ssPopMin (s : SortedSetM) (count : Nat) : SortedSetM × List Element :=
  match getFirstInRange s.list scoreNegativeInfBorder scorePositiveInfBorder with
  | none => (s, [])
  | some first =>
    let (removed, kept) :=
      slRemoveRange s.list (.scoreB first.score false) scorePositiveInfBorder
        count
    (⟨kept, dictDelAll s.dict removed⟩, removed)

/-- The (member, score) pair view of a chain. -/
def elemPairs (l : List Element) : List (String × Int) :=
  l.map (fun e => (e.member, e.score))

/-- The coherence invariant of claim C8, strengthened with the level-0
ordering invariant the skiplist maintains: the chain is strictly sorted by
(score, member); no member appears twice; and the map holds exactly the
(member, score) pairs of the chain.  The last conjunct (a permutation)
captures both directions of "member in map iff exactly one node with that
member and the same score" and the equal sizes. -/
def Coherent (s : SortedSetM) : Prop :=
  s.list.Pairwise eltLt ∧
  (s.list.map Element.member).Nodup ∧
  s.dict.Perm (elemPairs s.list)

instance (s : SortedSetM) : Decidable (Coherent s) := by
  unfold Coherent
  infer_instance

/-! ## Entity marshalling

From src/aof/marshal.go.  A produced command line is a Go `[][]byte` whose
slots may remain nil; it is modelled as a list of `Option String`
(`none` = nil slot).
-/

/-- The five supported value shapes of a `DataEntity` (spec section 3;
`EntityToCmd`'s type switch).  Hash entities (`dict.MakeSimple`, whose
file is not under src/) are modelled from the spec as field-to-value
association lists with Go-map semantics. -/
inductive Value where
  | str (s : String)
  | list (items : List String)
  | set (members : List String)
  | hash (fields : List (String × String))
  | zset (z : SortedSetM)
deriving DecidableEq, Repr

/-- `stringToCmd` (marshal.go lines 53-59). -/
def stringToCmd (key : String) (v : String) : List (Option String) :=
  [some "SET", some key, some v]

/-- `listToCmd` (marshal.go lines 63-73). -/
def listToCmd (key : String) (items : List String) : List (Option String) :=
  some "RPUSH" :: some key :: items.map some

/-- `setToCmd` (marshal.go lines 77-88). -/
def setToCmd (key : String) (members : List String) : List (Option String) :=
  some "SADD" :: some key :: members.map some

/-- The `hash.ForEach` loop body of `hashToCmd` (marshal.go lines
97-104): field i is written to `args[2*i]` and its value to `args[2*i+1]`
(the source omits the +2 offset used by every sibling function). -/
def hashWriteLoop (args : List (Option String)) (i : Nat) :
    List (String × String) → List (Option String)
  | [] => args
  | (f, v) :: t =>
    hashWriteLoop ((args.set (2 * i) (some f)).set (2 * i + 1) (some v))
      (i + 1) t

/-- `hashToCmd` (marshal.go lines 92-106): allocate 2 + 2n nil slots, put
"HMSET" and the key in front, then run the write loop (which overwrites
slots 0 and 1 with the first field/value pair and leaves the last two
slots nil). -/
def hashToCmd (key : String) (fields : List (String × String)) :
    List (Option String) :=
  let args := ((List.replicate (2 + fields.length * 2)
      (none : Option String)).set 0 (some "HMSET")).set 1 (some key)
  hashWriteLoop args 0 fields

/-- `zSetToCmd` (marshal.go lines 110-123): iterates `ForEachByRank` with
desc = true, hence emits score/member pairs from the tail of the chain
backwards.  Scores are rendered with `toString` (the Go code formats the
float64 score). -/
def zSetToCmd (key : String) (z : SortedSetM) : List (Option String) :=
  some "ZADD" :: some key ::
    (z.list.reverse.foldr
      (fun e acc => some (toString e.score) :: some e.member :: acc) [])

/-- `EntityToCmd` (marshal.go lines 20-38): dispatch on the value shape. -/
def entityToCmd (key : String) (v : Value) : List (Option String) :=
  match v with
  | .str s => stringToCmd key s
  | .list items => listToCmd key items
  | .set members => setToCmd key members
  | .hash fields => hashToCmd key fields
  | .zset z => zSetToCmd key z

/-- Go converts a possibly-nil `[]byte` with `string(...)`, under which
nil becomes the empty string: the view of a marshalled command line as an
executable command line. -/
def optToCmd (l : List (Option String)) : List String :=
  l.map (fun o => o.getD "")

/-! ## Association list lemmas (Go-map reasoning) -/

lemma aKeys_nil {α : Type} : aKeys ([] : List (String × α)) = [] := rfl

lemma aKeys_cons {α : Type} (k : String) (v : α) (t : List (String × α)) :
    aKeys ((k, v) :: t) = k :: aKeys t := rfl

lemma aGet_mem {α : Type} {d : List (String × α)} {m : String} {v : α}
    (h : aGet d m = some v) : (m, v) ∈ d := by
  induction d with
  | nil => simp [aGet] at h
  | cons p t ih =>
    obtain ⟨k1, v1⟩ := p
    by_cases hk : k1 = m
    · rw [aGet, if_pos hk] at h
      rw [List.mem_cons]
      exact Or.inl (by rw [hk, Option.some_inj.mp h])
    · rw [aGet, if_neg hk] at h
      exact List.mem_cons_of_mem _ (ih h)

lemma aGet_eq_none {α : Type} {d : List (String × α)} {m : String} :
    aGet d m = none ↔ m ∉ aKeys d := by
  induction d with
  | nil => simp [aGet, aKeys_nil]
  | cons p t ih =>
    obtain ⟨k1, v1⟩ := p
    by_cases hk : k1 = m
    · subst hk
      simp [aGet, aKeys_cons]
    · rw [aGet, if_neg hk, ih, aKeys_cons, List.mem_cons, not_or]
      exact ⟨fun h => ⟨fun he => hk he.symm, h⟩, fun h => h.2⟩

lemma aDel_sublist {α : Type} (d : List (String × α)) (m : String) :
    (aDel d m).Sublist d := by
  induction d with
  | nil => simp [aDel]
  | cons p t ih =>
    obtain ⟨k1, v1⟩ := p
    by_cases hk : k1 = m
    · rw [aDel, if_pos hk]
      exact List.sublist_cons_self _ _
    · rw [aDel, if_neg hk]
      exact List.Sublist.cons₂ _ ih

lemma aPut_fresh {α : Type} {d : List (String × α)} {m : String}
    (h : m ∉ aKeys d) (v : α) : aPut d m v = d ++ [(m, v)] := by
  induction d with
  | nil => simp [aPut]
  | cons p t ih =>
    obtain ⟨k1, v1⟩ := p
    rw [aKeys_cons, List.mem_cons, not_or] at h
    rw [aPut, if_neg (fun he => h.1 he.symm), ih h.2]
    simp

lemma cons_aDel_perm {α : Type} {d : List (String × α)}
    (hnd : (aKeys d).Nodup) {m : String} {v : α} (hmem : (m, v) ∈ d) :
    d.Perm ((m, v) :: aDel d m) := by
  induction d with
  | nil => simp at hmem
  | cons p t ih =>
    obtain ⟨k1, v1⟩ := p
    rw [aKeys_cons, List.nodup_cons] at hnd
    by_cases hk : k1 = m
    · subst hk
      -- with unique keys the head is the only entry with key k1
      have hv : (k1, v) = (k1, v1) := by
        rcases List.mem_cons.mp hmem with h | h
        · exact h
        · exact absurd (List.mem_map_of_mem Prod.fst h) hnd.1
      rw [aDel, if_pos rfl, ← hv]
    · have hmem2 : (m, v) ∈ t := by
        rcases List.mem_cons.mp hmem with h | h
        · exact absurd (congrArg Prod.fst h).symm hk
        · exact h
      have hstep := (ih hnd.2 hmem2).cons (k1, v1)
      have hswap : ((k1, v1) :: (m, v) :: aDel t m).Perm
          ((m, v) :: (k1, v1) :: aDel t m) := List.Perm.swap _ _ _
      have hd : (m, v) :: aDel ((k1, v1) :: t) m =
          (m, v) :: (k1, v1) :: aDel t m := by rw [aDel, if_neg hk]
      rw [hd]
      exact hstep.trans hswap

lemma aPut_update_perm {α : Type} {d : List (String × α)}
    (hnd : (aKeys d).Nodup) {m : String} {old : α} (hmem : (m, old) ∈ d)
    (v : α) : (aPut d m v).Perm ((m, v) :: aDel d m) := by
  induction d with
  | nil => simp at hmem
  | cons p t ih =>
    obtain ⟨k1, v1⟩ := p
    rw [aKeys_cons, List.nodup_cons] at hnd
    by_cases hk : k1 = m
    · rw [aPut, if_pos hk, aDel, if_pos hk]
    · have hmem2 : (m, old) ∈ t := by
        rcases List.mem_cons.mp hmem with h | h
        · exact absurd (congrArg Prod.fst h).symm hk
        · exact h
      have hstep := (ih hnd.2 hmem2).cons (k1, v1)
      have hswap : ((k1, v1) :: (m, v) :: aDel t m).Perm
          ((m, v) :: (k1, v1) :: aDel t m) := List.Perm.swap _ _ _
      rw [aPut, if_neg hk, aDel, if_neg hk]
      exact hstep.trans hswap

lemma aDel_perm_of_perm {α : Type} {d r : List (String × α)}
    (hnd : (aKeys d).Nodup) {m : String} {v : α}
    (h : d.Perm ((m, v) :: r)) : (aDel d m).Perm r := by
  have hmem : (m, v) ∈ d := h.mem_iff.mpr (List.mem_cons_self _ _)
  have h2 := cons_aDel_perm hnd hmem
  exact (List.Perm.cons_inv (h2.symm.trans h))

/-- The member-wise deletion loop applied to the removed elements peels
exactly their pairs off the map. -/
lemma dictDelAll_perm {d : List (String × Int)} {R : List Element}
    {P : List (String × Int)} (hnd : (aKeys d).Nodup)
    (h : d.Perm (R.map (fun e => (e.member, e.score)) ++ P)) :
    (dictDelAll d R).Perm P := by
  induction R generalizing d with
  | nil => simpa [dictDelAll] using h
  | cons e R ih =>
    have h1 : d.Perm ((e.member, e.score) ::
        (R.map (fun e => (e.member, e.score)) ++ P)) := by simpa using h
    have h2 := aDel_perm_of_perm hnd h1
    have hnd2 : (aKeys (aDel d e.member)).Nodup :=
      ((aDel_sublist d e.member).map Prod.fst).nodup hnd
    have := ih hnd2 h2
    simpa [dictDelAll, List.foldl_cons] using this

/-! ## Skiplist chain lemmas -/

lemma slInsert_perm (l : List Element) (e : Element) :
    (slInsert l e).Perm (e :: l) := by
  induction l with
  | nil => simp [slInsert]
  | cons h t ih =>
    by_cases hlt : eltLt h e
    · rw [slInsert, if_pos hlt]
      exact (ih.cons h).trans (List.Perm.swap _ _ _)
    · rw [slInsert, if_neg hlt]

lemma slInsert_pairwise {l : List Element} {e : Element}
    (hp : l.Pairwise eltLt) (hm : ∀ x ∈ l, x.member ≠ e.member) :
    (slInsert l e).Pairwise eltLt := by
  induction l with
  | nil => simp [slInsert]
  | cons h t ih =>
    rw [List.pairwise_cons] at hp
    by_cases hlt : eltLt h e
    · rw [slInsert, if_pos hlt, List.pairwise_cons]
      refine ⟨?_, ih hp.2 (fun x hx => hm x (List.mem_cons_of_mem _ hx))⟩
      intro x hx
      rcases List.mem_cons.mp ((slInsert_perm t e).mem_iff.mp hx) with h1 | h1
      · exact h1 ▸ hlt
      · exact hp.1 x h1
    · rw [slInsert, if_neg hlt, List.pairwise_cons]
      have heh : eltLt e h := by
        rcases eltLt_trichotomy h e with h1 | h1 | h1
        · exact absurd h1 hlt
        · exact absurd (congrArg Element.member h1)
            (hm h (List.mem_cons_self _ _))
        · exact h1
      refine ⟨?_, List.pairwise_cons.mpr hp⟩
      intro x hx
      rcases List.mem_cons.mp hx with h1 | h1
      · exact h1 ▸ heh
      · exact eltLt_trans heh (hp.1 x h1)

lemma slRemove_decomp {l : List Element} (hp : l.Pairwise eltLt)
    {m : String} {sc : Int} (hmem : (⟨m, sc⟩ : Element) ∈ l) :
    ∃ l1 l2, l = l1 ++ (⟨m, sc⟩ : Element) :: l2 ∧
      slRemove l sc m = l1 ++ l2 := by
  induction l with
  | nil => simp at hmem
  | cons h t ih =>
    rw [List.pairwise_cons] at hp
    by_cases he : h = (⟨m, sc⟩ : Element)
    · refine ⟨[], t, by simp [he], ?_⟩
      rw [slRemove, if_neg (he ▸ eltLt_irrefl h), if_pos he]
      simp
    · have hmem2 : (⟨m, sc⟩ : Element) ∈ t := by
        rcases List.mem_cons.mp hmem with h1 | h1
        · exact absurd h1.symm he
        · exact h1
      obtain ⟨l1, l2, hsplit, hrem⟩ := ih hp.2 hmem2
      have hlt : eltLt h (⟨m, sc⟩ : Element) := hp.1 _ hmem2
      exact ⟨h :: l1, l2, by simp [hsplit],
        by rw [slRemove, if_pos hlt, hrem]; simp⟩

lemma srrSkip_append (min : Border) (l : List Element) :
    (srrSkip min l).1 ++ (srrSkip min l).2 = l := by
  induction l with
  | nil => simp [srrSkip]
  | cons h t ih =>
    by_cases hb : bLess min h
    · simp [srrSkip, hb]
    · simp only [srrSkip, hb, Bool.false_eq_true, if_false]
      simpa using ih

lemma srrLoop_append (max : Border) (limit : Nat) (l : List Element)
    (cnt : Nat) : (srrLoop max limit l cnt).1 ++ (srrLoop max limit l cnt).2 = l := by
  induction l generalizing cnt with
  | nil => simp [srrLoop]
  | cons h t ih =>
    by_cases hb : !(bGreater max h)
    · simp [srrLoop, hb]
    · by_cases hl : limit > 0 && cnt + 1 == limit
      · simp [srrLoop, hb, hl]
      · simp only [srrLoop, hb, Bool.false_eq_true, if_false, hl]
        simpa using ih (cnt + 1)

lemma srbrSearch_append (start : Int) (l : List Element) (i : Int) :
    (srbrSearch start l i).1 ++ (srbrSearch start l i).2.1 = l := by
  induction l generalizing i with
  | nil => simp [srbrSearch]
  | cons h t ih =>
    by_cases hc : i + 1 < start
    · simp only [srbrSearch, hc, if_pos]
      simpa using ih (i + 1)
    · simp [srbrSearch, hc]

lemma srbrLoop_append (stop : Int) (l : List Element) (i : Int) :
    (srbrLoop stop l i).1 ++ (srbrLoop stop l i).2 = l := by
  induction l generalizing i with
  | nil => simp [srbrLoop]
  | cons h t ih =>
    by_cases hc : i < stop
    · simp only [srbrLoop, hc, if_pos]
      simpa using ih (i + 1)
    · simp [srbrLoop, hc]

lemma slRemoveRange_decomp (l : List Element) (min max : Border)
    (limit : Nat) :
    ∃ pre suffix,
      l = pre ++ (slRemoveRange l min max limit).1 ++ suffix ∧
      (slRemoveRange l min max limit).2 = pre ++ suffix := by
  have hps := srrSkip_append min l
  have hq := srrLoop_append max limit (srrSkip min l).2 0
  refine ⟨(srrSkip min l).1, (srrLoop max limit (srrSkip min l).2 0).2, ?_, rfl⟩
  show l = (srrSkip min l).1 ++ (srrLoop max limit (srrSkip min l).2 0).1 ++
    (srrLoop max limit (srrSkip min l).2 0).2
  rw [List.append_assoc, hq, hps]

lemma slRemoveRangeByRank_decomp (l : List Element) (start stop : Int) :
    ∃ pre suffix,
      l = pre ++ (slRemoveRangeByRank l start stop).1 ++ suffix ∧
      (slRemoveRangeByRank l start stop).2 = pre ++ suffix := by
  have hps := srbrSearch_append start l 0
  have hq := srbrLoop_append stop (srbrSearch start l 0).2.1
    ((srbrSearch start l 0).2.2 + 1)
  refine ⟨(srbrSearch start l 0).1,
    (srbrLoop stop (srbrSearch start l 0).2.1
      ((srbrSearch start l 0).2.2 + 1)).2, ?_, rfl⟩
  show l = (srbrSearch start l 0).1 ++
    (srbrLoop stop (srbrSearch start l 0).2.1
      ((srbrSearch start l 0).2.2 + 1)).1 ++
    (srbrLoop stop (srbrSearch start l 0).2.1
      ((srbrSearch start l 0).2.2 + 1)).2
  rw [List.append_assoc, hq, hps]

/-! ## Coherence preservation (claim C8) -/

lemma elemPairs_map_fst (l : List Element) :
    (elemPairs l).map Prod.fst = l.map Element.member := by
  simp [elemPairs]

lemma elemPairs_append (l1 l2 : List Element) :
    elemPairs (l1 ++ l2) = elemPairs l1 ++ elemPairs l2 := by
  simp [elemPairs]

lemma elemPairs_cons (e : Element) (l : List Element) :
    elemPairs (e :: l) = (e.member, e.score) :: elemPairs l := rfl

lemma coherent_def (s : SortedSetM) :
    Coherent s ↔ s.list.Pairwise eltLt ∧ (s.list.map Element.member).Nodup ∧
      s.dict.Perm (elemPairs s.list) := Iff.rfl

lemma Coherent.keysNodup {s : SortedSetM} (h : Coherent s) :
    (aKeys s.dict).Nodup := by
  obtain ⟨-, hnd, hperm⟩ := h
  have := hperm.map Prod.fst
  rw [elemPairs_map_fst] at this
  exact (this.nodup_iff).mpr hnd

lemma mem_elemPairs {l : List Element} {m : String} {sc : Int} :
    (m, sc) ∈ elemPairs l ↔ (⟨m, sc⟩ : Element) ∈ l := by
  constructor
  · intro h
    obtain ⟨e, he, hpair⟩ := List.mem_map.mp h
    have : e = (⟨m, sc⟩ : Element) := by
      cases e
      simp at hpair
      simp [hpair]
    exact this ▸ he
  · intro h
    exact List.mem_map.mpr ⟨⟨m, sc⟩, h, rfl⟩

lemma Coherent.mem_dict_iff {s : SortedSetM} (h : Coherent s) {m : String}
    {sc : Int} : (m, sc) ∈ s.dict ↔ (⟨m, sc⟩ : Element) ∈ s.list := by
  obtain ⟨-, -, hperm⟩ := h
  rw [hperm.mem_iff, mem_elemPairs]

lemma aGet_of_mem_nodup {α : Type} {d : List (String × α)}
    (hnd : (aKeys d).Nodup) {m : String} {v : α} (hmem : (m, v) ∈ d) :
    aGet d m = some v := by
  induction d with
  | nil => simp at hmem
  | cons p t ih =>
    obtain ⟨k1, v1⟩ := p
    rw [aKeys_cons, List.nodup_cons] at hnd
    by_cases hk : k1 = m
    · subst hk
      have hv : (k1, v) = (k1, v1) := by
        rcases List.mem_cons.mp hmem with h | h
        · exact h
        · exact absurd (List.mem_map_of_mem Prod.fst h) hnd.1
      rw [aGet, if_pos rfl]
      simpa using congrArg Prod.snd hv.symm
    · have hmem2 : (m, v) ∈ t := by
        rcases List.mem_cons.mp hmem with h | h
        · exact absurd (congrArg Prod.fst h).symm hk
        · exact h
      rw [aGet, if_neg hk]
      exact ih hnd.2 hmem2

/-- The content of the C8 invariant in the claim's phrasing: a member is in
the map exactly when a node with that member and the same score is in the
skiplist chain. -/
lemma Coherent.lookup_iff {s : SortedSetM} (h : Coherent s) (m : String)
    (sc : Int) : aGet s.dict m = some sc ↔ (⟨m, sc⟩ : Element) ∈ s.list := by
  constructor
  · intro hg
    exact h.mem_dict_iff.mp (aGet_mem hg)
  · intro hmem
    exact aGet_of_mem_nodup h.keysNodup (h.mem_dict_iff.mpr hmem)

/-- The size part of the C8 invariant: the map and the chain agree in
length. -/
lemma Coherent.size_eq {s : SortedSetM} (h : Coherent s) :
    s.dict.length = s.list.length := by
  obtain ⟨-, -, hperm⟩ := h
  rw [hperm.length_eq]
  simp [elemPairs]

/-- A member not in the chain of a coherent set is absent from the map. -/
lemma Coherent.not_mem_of_aGet_none {s : SortedSetM} (h : Coherent s)
    {m : String} (hg : aGet s.dict m = none) :
    ∀ x ∈ s.list, x.member ≠ m := by
  intro x hx he
  have hkm : m ∈ aKeys s.dict := by
    obtain ⟨-, -, hperm⟩ := h
    have h1 : m ∈ (elemPairs s.list).map Prod.fst := by
      rw [elemPairs_map_fst]
      exact he ▸ List.mem_map_of_mem Element.member hx
    exact ((hperm.map Prod.fst).mem_iff).mpr h1
  exact (aGet_eq_none.mp hg) hkm

/-- Preservation core: removing a decomposed slice from the chain and its
members from the map keeps the structure coherent. -/
lemma coherent_slice (s : SortedSetM) (h : Coherent s)
    (removed kept : List Element)
    (hdec : ∃ pre suffix, s.list = pre ++ removed ++ suffix ∧
      kept = pre ++ suffix) :
    Coherent ⟨kept, dictDelAll s.dict removed⟩ := by
  obtain ⟨hpw, hnd, hperm⟩ := h
  obtain ⟨pre, suffix, hsplit, hkept⟩ := hdec
  have hsub : kept.Sublist s.list := by
    rw [hsplit, hkept, List.append_assoc]
    exact (List.sublist_append_right removed suffix).append_left pre
  refine ⟨hpw.sublist hsub, hnd.sublist (hsub.map Element.member), ?_⟩
  have hshuffle : (elemPairs s.list).Perm (elemPairs removed ++ elemPairs kept) := by
    rw [hsplit, hkept, elemPairs_append, elemPairs_append, elemPairs_append,
      List.append_assoc]
    exact List.perm_append_comm_assoc _ _ _
  have hd : s.dict.Perm (elemPairs removed ++ elemPairs kept) :=
    hperm.trans hshuffle
  have hkeys : (aKeys s.dict).Nodup :=
    Coherent.keysNodup ⟨hpw, hnd, hperm⟩
  exact dictDelAll_perm hkeys (by simpa [elemPairs] using hd)

/-- `SortedSet.Add` preserves coherence. -/
lemma coherent_add (s : SortedSetM) (h : Coherent s) (m : String)
    (sc : Int) : Coherent (ssAdd s m sc).1 := by
  obtain ⟨hpw, hnd, hperm⟩ := h
  have hkeys : (aKeys s.dict).Nodup := Coherent.keysNodup ⟨hpw, hnd, hperm⟩
  cases hg : aGet s.dict m with
  | none =>
    simp only [ssAdd, hg]
    -- fresh member: ordered insert into the chain, append to the map
    have hfresh : ∀ x ∈ s.list, x.member ≠ m :=
      Coherent.not_mem_of_aGet_none ⟨hpw, hnd, hperm⟩ hg
    refine ⟨slInsert_pairwise hpw (fun x hx => hfresh x hx), ?_, ?_⟩
    · have hmm := (slInsert_perm s.list ⟨m, sc⟩).map Element.member
      rw [hmm.nodup_iff]
      exact List.nodup_cons.mpr ⟨fun hc => by
        obtain ⟨x, hx, hxm⟩ := List.mem_map.mp hc
        exact hfresh x hx hxm, hnd⟩
    · have h1 : aPut s.dict m sc = s.dict ++ [(m, sc)] :=
        aPut_fresh (aGet_eq_none.mp hg) sc
      rw [h1]
      have h2 : (s.dict ++ [(m, sc)]).Perm ((m, sc) :: s.dict) :=
        List.perm_append_singleton _ _
      refine h2.trans ?_
      have h3 := (slInsert_perm s.list ⟨m, sc⟩).map
        (fun e => (e.member, e.score))
      exact (hperm.cons _).trans h3.symm
  | some old =>
    simp only [ssAdd, hg]
    have hmemd : (m, old) ∈ s.dict := aGet_mem hg
    have hmeml : (⟨m, old⟩ : Element) ∈ s.list :=
      (Coherent.mem_dict_iff ⟨hpw, hnd, hperm⟩).mp hmemd
    by_cases hne : sc ≠ old
    · rw [if_pos hne]
      obtain ⟨l1, l2, hsplit, hrem⟩ := slRemove_decomp hpw hmeml
      -- the chain with the member's old node removed
      have hsubr : (l1 ++ l2).Sublist s.list := by
        rw [hsplit]
        exact (List.sublist_cons_self _ _).append_left l1
      have hpwr : (l1 ++ l2).Pairwise eltLt := hpw.sublist hsubr
      have hndr : ((l1 ++ l2).map Element.member).Nodup :=
        hnd.sublist (hsubr.map Element.member)
      have hnotm : ∀ x ∈ l1 ++ l2, x.member ≠ m := by
        intro x hx he
        have h1 : (s.list.map Element.member).Perm
            (m :: (l1 ++ l2).map Element.member) := by
          rw [hsplit, List.map_append, List.map_cons, List.map_append]
          exact List.perm_append_comm_assoc (l1.map Element.member)
            [m] (l2.map Element.member)
        have h2 := (h1.nodup_iff).mp hnd
        rw [List.nodup_cons] at h2
        exact h2.1 (he ▸ List.mem_map_of_mem Element.member hx)
      rw [hrem]
      refine ⟨slInsert_pairwise hpwr hnotm, ?_, ?_⟩
      · have hmm := (slInsert_perm (l1 ++ l2) ⟨m, sc⟩).map Element.member
        rw [hmm.nodup_iff]
        exact List.nodup_cons.mpr ⟨fun hc => by
          obtain ⟨x, hx, hxm⟩ := List.mem_map.mp hc
          exact hnotm x hx hxm, hndr⟩
      · have h1 := aPut_update_perm hkeys hmemd sc
        refine h1.trans ?_
        have h2 : (aDel s.dict m).Perm (elemPairs (l1 ++ l2)) := by
          apply aDel_perm_of_perm hkeys (v := old)
          refine hperm.trans ?_
          rw [hsplit, elemPairs_append, elemPairs_cons, elemPairs_append]
          exact List.perm_append_comm_assoc (elemPairs l1) [(m, old)]
            (elemPairs l2)
        have h3 := (slInsert_perm (l1 ++ l2) ⟨m, sc⟩).map
          (fun e => (e.member, e.score))
        exact (h2.cons _).trans h3.symm
    · rw [if_neg hne]
      rw [not_not] at hne
      refine ⟨hpw, hnd, ?_⟩
      have h1 := aPut_update_perm hkeys hmemd sc
      have h2 := cons_aDel_perm hkeys hmemd
      rw [hne] at h1 ⊢
      exact (h1.trans h2.symm).trans hperm

/-- `SortedSet.Remove` preserves coherence. -/
lemma coherent_remove (s : SortedSetM) (h : Coherent s) (m : String) :
    Coherent (ssRemove s m).1 := by
  obtain ⟨hpw, hnd, hperm⟩ := h
  have hkeys : (aKeys s.dict).Nodup := Coherent.keysNodup ⟨hpw, hnd, hperm⟩
  cases hg : aGet s.dict m with
  | none =>
    simp only [ssRemove, hg]
    exact ⟨hpw, hnd, hperm⟩
  | some sc =>
    simp only [ssRemove, hg]
    have hmemd : (m, sc) ∈ s.dict := aGet_mem hg
    have hmeml : (⟨m, sc⟩ : Element) ∈ s.list :=
      (Coherent.mem_dict_iff ⟨hpw, hnd, hperm⟩).mp hmemd
    obtain ⟨l1, l2, hsplit, hrem⟩ := slRemove_decomp hpw hmeml
    have hsubr : (l1 ++ l2).Sublist s.list := by
      rw [hsplit]
      exact (List.sublist_cons_self _ _).append_left l1
    rw [hrem]
    refine ⟨hpw.sublist hsubr, hnd.sublist (hsubr.map Element.member), ?_⟩
    apply aDel_perm_of_perm hkeys (v := sc)
    refine hperm.trans ?_
    rw [hsplit, elemPairs_append, elemPairs_cons, elemPairs_append]
    exact List.perm_append_comm_assoc (elemPairs l1) [(m, sc)] (elemPairs l2)

/-- `SortedSet.RemoveRange` preserves coherence. -/
lemma coherent_removeRange (s : SortedSetM) (h : Coherent s)
    (min max : Border) : Coherent (ssRemoveRange s min max).1 :=
  coherent_slice s h _ _ (slRemoveRange_decomp s.list min max 0)

/-- `SortedSet.RemoveByRank` preserves coherence. -/
lemma coherent_removeByRank (s : SortedSetM) (h : Coherent s)
    (start stop : Int) : Coherent (ssRemoveByRank s start stop).1 :=
  coherent_slice s h _ _ (slRemoveRangeByRank_decomp s.list (start + 1) (stop + 1))

/-- `SortedSet.PopMin` preserves coherence. -/
lemma coherent_popMin (s : SortedSetM) (h : Coherent s) (count : Nat) :
    Coherent (ssPopMin s count).1 := by
  rw [ssPopMin]
  cases getFirstInRange s.list scoreNegativeInfBorder scorePositiveInfBorder with
  | none => exact h
  | some first =>
    exact coherent_slice s h _ _
      (slRemoveRange_decomp s.list (.scoreB first.score false)
        scorePositiveInfBorder count)

/-- C8: every sorted-set operation (Add, Remove, RemoveRange,
RemoveByRank, PopMin) preserves the coherence invariant: the chain stays
strictly sorted with no duplicated member, and the member map holds
exactly the (member, score) pairs of the chain, which by
`Coherent.lookup_iff` and `Coherent.size_eq` is the claim's statement
(member in map iff a unique node with the same score in the skiplist, and
equal sizes). -/
theorem C8_sortedset_coherence (s : SortedSetM) (h : Coherent s)
    (m : String) (sc : Int) (mn mx : Border) (a b : Int) (cnt : Nat) :
    Coherent (ssAdd s m sc).1 ∧
    Coherent (ssRemove s m).1 ∧
    Coherent (ssRemoveRange s mn mx).1 ∧
    Coherent (ssRemoveByRank s a b).1 ∧
    Coherent (ssPopMin s cnt).1 :=
  ⟨coherent_add s h m sc, coherent_remove s h m,
   coherent_removeRange s h mn mx, coherent_removeByRank s h a b,
   coherent_popMin s h cnt⟩

/-- C8, witness: a concrete coherent sorted set with three elements,
exercised at concrete arguments. -/
theorem C8_sortedset_coherence_witness :
    Coherent ⟨[⟨"b", 1⟩, ⟨"c", 2⟩, ⟨"a", 3⟩], [("a", 3), ("b", 1), ("c", 2)]⟩ ∧
    (Coherent (ssAdd ⟨[⟨"b", 1⟩, ⟨"c", 2⟩, ⟨"a", 3⟩],
        [("a", 3), ("b", 1), ("c", 2)]⟩ "c" 9).1 ∧
     Coherent (ssRemove ⟨[⟨"b", 1⟩, ⟨"c", 2⟩, ⟨"a", 3⟩],
        [("a", 3), ("b", 1), ("c", 2)]⟩ "c").1 ∧
     Coherent (ssRemoveRange ⟨[⟨"b", 1⟩, ⟨"c", 2⟩, ⟨"a", 3⟩],
        [("a", 3), ("b", 1), ("c", 2)]⟩ (.scoreB 2 false) (.scoreB 3 false)).1 ∧
     Coherent (ssRemoveByRank ⟨[⟨"b", 1⟩, ⟨"c", 2⟩, ⟨"a", 3⟩],
        [("a", 3), ("b", 1), ("c", 2)]⟩ 0 1).1 ∧
     Coherent (ssPopMin ⟨[⟨"b", 1⟩, ⟨"c", 2⟩, ⟨"a", 3⟩],
        [("a", 3), ("b", 1), ("c", 2)]⟩ 2).1) :=
  ⟨by decide, C8_sortedset_coherence _ (by decide) "c" 9 (.scoreB 2 false)
    (.scoreB 3 false) 0 1 2⟩

/-! ## Replies

Modelled from the spec (section 6 reply kinds and section 7 error texts):
the protocol package is not under src/; the texts below are the ones the
database code passes to the protocol constructors. -/

inductive Reply where
  | ok
  | queued
  | status (s : String)
  | int (n : Int)
  | bulk (s : String)
  | nullBulk
  | multiBulk (args : List (Option String))
  | multiRaw (rs : List Reply)
  | emptyMultiBulk
  | err (msg : String)
  | unknownErr
deriving Repr

/-- `protocol.IsErrorReply`: the error reply kinds. -/
def isErrorReply : Reply → Bool
  | .err _ => true
  | .unknownErr => true
  | _ => false

/-- `protocol.MakeArgNumErrReply`. -/
def argNumErr (name : String) : Reply :=
  .err ("ERR wrong number of arguments for '" ++ name ++ "' command")

/-- `protocol.MakeSyntaxErrReply`. -/
def syntaxErr : Reply := .err "ERR syntax error"

/-- `protocol.WrongTypeErrReply`. -/
def wrongTypeErr : Reply :=
  .err "WRONGTYPE Operation against a key holding the wrong kind of value"

/-- The EXECABORT error text of database.go and hash.go. -/
def execAbortErr : Reply :=
  .err "EXECABORT Transaction discarded because of previous errors."

/-- An executor's outcome: a reply, or a runtime panic (nil dereference,
caught only by the dispatcher's recover). -/
inductive ExecResult where
  | reply (r : Reply)
  | panicked
deriving Repr

/-! ## Database state

From src/database/database.go.  One logical database: the data map, the
TTL map (expiry timestamps, milliseconds), the version map (uint32
counters), and the pending time-wheel expiration tasks (by task name).
`now` makes the clock reads of `IsExpired` explicit.  Locking is identity
in this sequential model: every lock acquired on an execution path is
released on the same path. -/

structure DBState where
  data : List (String × Value)
  ttl : List (String × Int)
  versions : List (String × Nat)
  tasks : List String
  now : Int
deriving Repr

/-- `strings.ToLower`, written over the character list (the positional
implementation of String.map does not reduce in the kernel). -/
def strToLower (s : String) : String := String.mk (s.data.map Char.toLower)

/-- `genExpireTask` (database.go lines 143-145). -/
def genExpireTask (key : String) : String := "expire:" ++ key

/-- `timewheel.Cancel`: drop the task with the given name. -/
def twCancel (tasks : List String) (k : String) : List String :=
  tasks.filter (fun t => t ≠ k)

/-- `DB.Remove` (database.go lines 232-244): delete from the data map,
delete from the ttl map, cancel the pending expiration task.  The version
map is not touched.  (The delete callback is nil in a basic DB.) -/
def dbRemove (db : DBState) (key : String) : DBState :=
  { db with data := aDel db.data key,
            ttl := aDel db.ttl key,
            tasks := twCancel db.tasks (genExpireTask key) }

/-- `DB.Persist` (database.go lines 170-174). -/
def dbPersist (db : DBState) (key : String) : DBState :=
  { db with ttl := aDel db.ttl key,
            tasks := twCancel db.tasks (genExpireTask key) }

/-- `DB.IsExpired` (database.go lines 177-188): reads the ttl map and, on
expiry, removes the key as a side effect. -/
def dbIsExpired (db : DBState) (key : String) : Bool × DBState :=
  match aGet db.ttl key with
  | none => (false, db)
  | some t => if db.now > t then (true, dbRemove db key) else (false, db)

/-- `DB.GetEntity` (database.go lines 192-205) with lazy eviction. -/
def dbGetEntity (db : DBState) (key : String) : Option Value × DBState :=
  match aGet db.data key with
  | none => (none, db)
  | some v =>
    let r := dbIsExpired db key
    if r.1 then (none, dbRemove r.2 key) else (some v, r.2)

/-- `DB.GetVersion` (database.go lines 271-281). -/
def getVersion (db : DBState) (key : String) : Nat :=
  (aGet db.versions key).getD 0

/-- `DB.addVersion` (database.go lines 283-288); versions are uint32. -/
def addVersion (db : DBState) (keys : List String) : DBState :=
  keys.foldl (fun d k =>
    { d with versions := aPut d.versions k ((getVersion d k + 1) % 2 ^ 32) }) db

/-! ## Hash commands (src/database/hash.go) -/

/-- `DB.getAsDict` (hash.go lines 16-28): key absent gives (nil, nil);
a non-hash entity gives a wrong-type error.  Returns (dict?, error?,
state after the lazy-eviction read). -/
def getAsDict (db : DBState) (key : String) :
    Option (List (String × String)) × Option Reply × DBState :=
  match dbGetEntity db key with
  | (none, db2) => (none, none, db2)
  | (some (.hash h), db2) => (some h, none, db2)
  | (some _, db2) => (none, some wrongTypeErr, db2)

/-- `execHGet` (hash.go lines 81-98): no nil check after `getAsDict`, so a
missing key reaches `d.Get` on a nil Dict, a nil dereference. -/
def execHGet (db : DBState) (args : List String) : ExecResult × DBState :=
  let key := args.getD 0 ""
  let field := args.getD 1 ""
  match getAsDict db key with
  | (_, some e, db2) => (.reply e, db2)
  | (none, none, db2) => (.panicked, db2)
  | (some d, none, db2) =>
    match aGet d field with
    | none => (.reply .nullBulk, db2)
    | some v => (.reply (.bulk v), db2)

/-- `execHSet` (hash.go lines 47-59) combined with `getOrInitDict` (lines
30-45): the mutated SimpleDict is written back through the entity. -/
def execHSet (db : DBState) (args : List String) : ExecResult × DBState :=
  let key := args.getD 0 ""
  let field := args.getD 1 ""
  let value := args.getD 2 ""
  match getAsDict db key with
  | (_, some e, db2) => (.reply e, db2)
  | (d0, none, db2) =>
    let d := d0.getD []
    let result : Int := if (aGet d field).isSome then 0 else 1
    (.reply (.int result),
     { db2 with data := aPut db2.data key (.hash (aPut d field value)) })

/-- `execHDel` (hash.go lines 119-142): like HGET there is no nil check,
so a missing key panics at `d.Remove`; when the dict empties, the key is
removed from the database. -/
def execHDel (db : DBState) (args : List String) : ExecResult × DBState :=
  let key := args.getD 0 ""
  let fields := args.drop 1
  match getAsDict db key with
  | (_, some e, db2) => (.reply e, db2)
  | (none, none, db2) => (.panicked, db2)
  | (some d, none, db2) =>
    let step := fields.foldl (fun (acc : List (String × String) × Nat) f =>
      if (aGet acc.1 f).isSome then (aDel acc.1 f, acc.2 + 1) else acc)
      (d, 0)
    let db3 := { db2 with data := aPut db2.data key (.hash step.1) }
    let db4 := if step.1.length = 0 then dbRemove db3 key else db3
    (.reply (.int step.2), db4)

/-- `execHMSet` (hash.go lines 182-209): an even argument count is a
syntax error; otherwise all field/value pairs are stored. -/
def execHMSet (db : DBState) (args : List String) : ExecResult × DBState :=
  if args.length % 2 ≠ 1 then (.reply syntaxErr, db)
  else
    let key := args.getD 0 ""
    let size := (args.length - 1) / 2
    let fields := (List.range size).map (fun i => args.getD (2 * i + 1) "")
    let values := (List.range size).map (fun i => args.getD (2 * i + 2) "")
    match getAsDict db key with
    | (_, some e, db2) => (.reply e, db2)
    | (d0, none, db2) =>
      let d := d0.getD []
      let d2 := (fields.zip values).foldl
        (fun dd (fv : String × String) => aPut dd fv.1 fv.2) d
      (.reply .ok, { db2 with data := aPut db2.data key (.hash d2) })

/-! ## Keys commands (the generic-keys file of the source) -/

/-- `execDel` via `DB.Removes`: for each key, a plain map read decides
existence, then `DB.Remove`. -/
def execDel (db : DBState) (args : List String) : ExecResult × DBState :=
  let step := args.foldl (fun (acc : DBState × Nat) k =>
    if (aGet acc.1.data k).isSome then (dbRemove acc.1 k, acc.2 + 1) else acc)
    (db, 0)
  (.reply (.int step.2), step.1)

/-- `execPersist`: only acts when the entity exists. -/
def execPersist (db : DBState) (args : List String) : ExecResult × DBState :=
  let key := args.getD 0 ""
  match dbGetEntity db key with
  | (none, db2) => (.reply (.int 0), db2)
  | (some _, db2) => (.reply (.int 1), dbPersist db2 key)

/-- `toTTLCmd`: PERSIST when no TTL, PEXPIREAT with the millisecond
timestamp otherwise. -/
def toTTLCmd (db : DBState) (key : String) : List String :=
  match aGet db.ttl key with
  | none => ["PERSIST", key]
  | some t => ["PEXPIREAT", key, toString t]

/-! ## Prepare and undo functions (src/database/tx_utils.go) -/

/-- `readFirstKey`. -/
def readFirstKey (args : List String) : List String × List String :=
  ([], [args.getD 0 ""])

/-- `writeFirstKey`. -/
def writeFirstKey (args : List String) : List String × List String :=
  ([args.getD 0 ""], [])

/-- `writeAllKeys`. -/
def writeAllKeys (args : List String) : List String × List String :=
  (args, [])

/-- `rollbackGivenKeys` (tx_utils.go lines 46-70): DEL for an absent key;
DEL + the entity-reconstruction command + the TTL command for a present
one.  GetEntity's lazy eviction threads through the state. -/
def rollbackGivenKeys (db : DBState) (keys : List String) :
    List (List String) × DBState :=
  keys.foldl (fun (acc : List (List String) × DBState) key =>
    match dbGetEntity acc.2 key with
    | (none, db2) => (acc.1 ++ [["DEL", key]], db2)
    | (some v, db2) =>
      (acc.1 ++ [["DEL", key], optToCmd (entityToCmd key v), toTTLCmd db2 key],
       db2)) ([], db)

/-- `rollbackHashFields` (tx_utils.go lines 72-98). -/
def rollbackHashFields (db : DBState) (key : String) (fields : List String) :
    List (List String) × DBState :=
  match getAsDict db key with
  | (_, some _, db2) => ([], db2)
  | (none, none, db2) => ([["DEL", key]], db2)
  | (some d, none, db2) =>
    (fields.map (fun f =>
      match aGet d f with
      | none => ["HDEL", key, f]
      | some v => ["HSET", key, f, v]), db2)

/-- `undoDel`. -/
def undoDel (db : DBState) (args : List String) :
    List (List String) × DBState :=
  rollbackGivenKeys db args

/-- `undoHSet`. -/
def undoHSet (db : DBState) (args : List String) :
    List (List String) × DBState :=
  rollbackHashFields db (args.getD 0 "") [args.getD 1 ""]

/-- `undoHDel`. -/
def undoHDel (db : DBState) (args : List String) :
    List (List String) × DBState :=
  rollbackHashFields db (args.getD 0 "") (args.drop 1)

/-- `undoHMSet` (hash.go lines 211-219): the fields at the odd argument
positions. -/
def undoHMSet (db : DBState) (args : List String) :
    List (List String) × DBState :=
  let size := (args.length - 1) / 2
  rollbackHashFields db (args.getD 0 "")
    ((List.range size).map (fun i => args.getD (2 * i + 1) ""))

/-- `undoExpire`. -/
def undoExpire (db : DBState) (args : List String) :
    List (List String) × DBState :=
  ([toTTLCmd db (args.getD 0 "")], db)

/-! ## Command registry (src/database/router.go)

`registerCommand` stores into `cmdTable[name]` unconditionally, so a later
registration of the same name overwrites an earlier one.  hash.go's init
registers HGet twice: with arity 3 (line 470) and again with arity -3
(line 484); the -3 wins. -/

/-- The (lowercased name, arity) pairs of the `registerCommand` calls for
the fragment of the table these claims exercise, in registration order. -/
def registrationArities : List (String × Int) :=
  [("hset", 4), ("hget", 3), ("hdel", -3), ("hmset", -4), ("hget", -3),
   ("del", -2), ("persist", 2)]

/-- The arity stored in `cmdTable` after all registrations ran: fold the
registrations with overwrite semantics, then look up. -/
def effArity (name : String) : Int :=
  (aGet (registrationArities.foldl (fun t nv => aPut t nv.1 nv.2) []) name).getD 0

/-- One `cmdTable` entry (router.go `command`): executor, prepare, undo,
arity. -/
structure Command where
  exec : DBState → List String → ExecResult × DBState
  prepare : Option (List String → List String × List String)
  undo : Option (DBState → List String → List (List String) × DBState)
  arity : Int

/-- The registry fragment relevant to the claims (a lookup in the full
`cmdTable` map). -/
def cmdTable : String → Option Command
  | "hset" => some ⟨execHSet, some writeFirstKey, some undoHSet, effArity "hset"⟩
  | "hget" => some ⟨execHGet, some readFirstKey, none, effArity "hget"⟩
  | "hdel" => some ⟨execHDel, some writeFirstKey, some undoHDel, effArity "hdel"⟩
  | "hmset" => some ⟨execHMSet, some writeFirstKey, some undoHMSet, effArity "hmset"⟩
  | "del" => some ⟨execDel, some writeAllKeys, some undoDel, effArity "del"⟩
  | "persist" => some ⟨execPersist, some writeFirstKey, some undoExpire, effArity "persist"⟩
  | _ => none

/-- `validateArity` (database.go lines 53-59): positive means exact,
negative means at least the absolute value. -/
def validateArity (arity : Int) (cmdArgs : List String) : Bool :=
  if arity ≥ 0 then (cmdArgs.length : Int) == arity
  else (cmdArgs.length : Int) ≥ -arity

/-- `DB.execWithLock` (the transaction-internal executor, no locking, no
version bump; its arity failure reply is just the command name). -/
def execWithLock (db : DBState) (cmdLine : List String) :
    ExecResult × DBState :=
  let cmdName := strToLower (cmdLine.getD 0 "")
  match cmdTable cmdName with
  | none => (.reply (.err ("ERR unknown command '" ++ cmdName ++ "'")), db)
  | some cmd =>
    if !(validateArity cmd.arity cmdLine) then (.reply (.err cmdName), db)
    else cmd.exec db (cmdLine.drop 1)

/-- `DB.GetUndoLogs` (hash.go lines 565-576): nil for an unknown command
or one without an undo function. -/
def getUndoLogs (db : DBState) (cmdLine : List String) :
    List (List String) × DBState :=
  match cmdTable (strToLower (cmdLine.getD 0 "")) with
  | none => ([], db)
  | some cmd =>
    match cmd.undo with
    | none => ([], db)
    | some u => u db (cmdLine.drop 1)

/-- `isWatchingChanged` (hash.go lines 520-529). -/
def isWatchingChanged (db : DBState) (watching : List (String × Nat)) :
    Bool :=
  watching.any (fun kv => kv.2 != getVersion db kv.1)

/-- The key-collection loop at the top of `DB.ExecMulti` (hash.go lines
581-590): the source indexes `cmdTable[cmdName]` without an ok check and
calls `cmd.prepare`, so an unknown command or a nil prepare is a nil
dereference (modelled as none). -/
def collectKeys (cmdLines : List (List String)) :
    Option (List String × List String) :=
  cmdLines.foldl (fun acc cmdLine =>
    match acc with
    | none => none
    | some wr =>
      match cmdTable (strToLower (cmdLine.getD 0 "")) with
      | none => none
      | some cmd =>
        match cmd.prepare with
        | none => none
        | some p =>
          let pr := p (cmdLine.drop 1)
          some (wr.1 ++ pr.1, wr.2 ++ pr.2)) (some ([], []))

/-- Outcome of the command loop of `DB.ExecMulti`. -/
inductive MultiOutcome where
  | success (results : List Reply)
  | abortedWith (undoLogs : List (List (List String)))
  | panicked
deriving Repr

/-- The command loop of `DB.ExecMulti` (hash.go lines 605-619): before
each command its undo is captured; on the first error reply the loop
stops and the failed command's own undo is dropped
(`undoCmdLines = undoCmdLines[:len-1]`). -/
def runMultiCmds (db : DBState) :
    List (List String) → MultiOutcome × DBState
  | [] => (.success [], db)
  | c :: rest =>
    let u := getUndoLogs db c
    match execWithLock u.2 c with
    | (.panicked, db2) => (.panicked, db2)
    | (.reply r, db2) =>
      if isErrorReply r then (.abortedWith [], db2)
      else
        match runMultiCmds db2 rest with
        | (.success rs, db3) => (.success (r :: rs), db3)
        | (.abortedWith us, db3) => (.abortedWith (u.1 :: us), db3)
        | (.panicked, db3) => (.panicked, db3)

/-- The rollback loop of `DB.ExecMulti` (hash.go lines 627-636): captured
undo sequences replayed in reverse order, each sequence's commands in
order, replies discarded. -/
def replayUndo (db : DBState) (undoLogs : List (List (List String))) :
    DBState :=
  undoLogs.reverse.foldl
    (fun d cmds => cmds.foldl (fun d2 c => (execWithLock d2 c).2) d) db

/-- `DB.ExecMulti` (hash.go lines 579-638). -/
def dbExecMulti (db : DBState) (watching : List (String × Nat))
    (cmdLines : List (List String)) : ExecResult × DBState :=
  match collectKeys cmdLines with
  | none => (.panicked, db)
  | some wr =>
    if isWatchingChanged db watching then (.reply .emptyMultiBulk, db)
    else
      match runMultiCmds db cmdLines with
      | (.success rs, db2) => (.reply (.multiRaw rs), addVersion db2 wr.1)
      | (.abortedWith us, db2) => (.reply execAbortErr, replayUndo db2 us)
      | (.panicked, db2) => (.panicked, db2)

/-! ## Connection state and dispatch (src/database/database.go and the
transaction half of hash.go) -/

structure ConnState where
  inMulti : Bool
  queue : List (List String)
  watching : List (String × Nat)
  txErrors : List String
deriving Repr

/-- `Watch` (hash.go lines 510-517): snapshot the current version of each
argument key into the connection's watch map. -/
def watchCmd (db : DBState) (conn : ConnState) (args : List String) :
    Reply × ConnState :=
  let w2 := args.foldl (fun w k => aPut w k (getVersion db k)) conn.watching
  (.ok, { conn with watching := w2 })

/-- `StartMulti` (hash.go lines 534-540). -/
def startMulti (conn : ConnState) : Reply × ConnState :=
  if conn.inMulti then (.err "ERR MULTI calls can not be nested", conn)
  else (.ok, { conn with inMulti := true })

/-- `DiscardMulti` (hash.go lines 543-550). -/
def discardMulti (conn : ConnState) : Reply × ConnState :=
  if !conn.inMulti then (.err "ERR DISCARD without MULTI", conn)
  else (.ok, { conn with queue := [], inMulti := false })

/-- `EnqueueCmd` (hash.go lines 640-660): validation failures are
recorded as transaction errors; a valid command is queued. -/
def enqueueCmd (conn : ConnState) (cmdLine : List String) :
    Reply × ConnState :=
  let cmdName := strToLower (cmdLine.getD 0 "")
  match cmdTable cmdName with
  | none =>
    let e := "ERR unknown command '" ++ cmdName ++ "'"
    (.err e, { conn with txErrors := conn.txErrors ++ [e] })
  | some cmd =>
    match cmd.prepare with
    | none =>
      let e := "ERR command '" ++ cmdName ++ "' cannot be used in MULTI"
      (.err e, { conn with txErrors := conn.txErrors ++ [e] })
    | some _ =>
      if !(validateArity cmd.arity cmdLine) then
        (argNumErr cmdName,
         { conn with txErrors := conn.txErrors ++ [cmdName] })
      else (.queued, { conn with queue := conn.queue ++ [cmdLine] })

/-- `execMulti` (database.go lines 92-104): requires the MULTI state,
always leaves it, aborts on recorded errors, otherwise runs the queue. -/
def execMultiConn (db : DBState) (conn : ConnState) :
    ExecResult × DBState × ConnState :=
  if !conn.inMulti then (.reply (.err "ERR EXEC without MULTI"), db, conn)
  else
    let conn2 := { conn with inMulti := false }
    if conn.txErrors.length > 0 then (.reply execAbortErr, db, conn2)
    else
      let r := dbExecMulti db conn.watching conn.queue
      (r.1, r.2, conn2)

/-- `DB.execNormalCommand` (database.go lines 62-90): lookup, arity
check, prepare, version bump of the write keys, locks (identity here),
executor. -/
def execNormalCommand (db : DBState) (cmdLine : List String) :
    ExecResult × DBState :=
  let cmdName := strToLower (cmdLine.getD 0 "")
  match cmdTable cmdName with
  | none =>
    (.reply (.err ("ERR unknown command '" ++ cmdLine.getD 0 "" ++ "'")), db)
  | some cmd =>
    if !(validateArity cmd.arity cmdLine) then (.reply (argNumErr cmdName), db)
    else
      match cmd.prepare with
      | none => (.panicked, db)
      | some p =>
        let w := (p (cmdLine.drop 1)).1
        cmd.exec (addVersion db w) (cmdLine.drop 1)

/-- `DB.Exec` (database.go lines 106-136): MULTI, DISCARD, EXEC are
dispatched first; then WATCH — before the InMulti check — then enqueueing
when in MULTI state, and finally normal execution. -/
def dbExec (db : DBState) (conn : ConnState) (cmdLine : List String) :
    ExecResult × DBState × ConnState :=
  let cmdName := strToLower (cmdLine.getD 0 "")
  if cmdName = "multi" then
    if cmdLine.length ≠ 1 then (.reply (argNumErr cmdName), db, conn)
    else
      let r := startMulti conn
      (.reply r.1, db, r.2)
  else if cmdName = "discard" then
    if cmdLine.length ≠ 1 then (.reply (argNumErr cmdName), db, conn)
    else
      let r := discardMulti conn
      (.reply r.1, db, r.2)
  else if cmdName = "exec" then
    if cmdLine.length ≠ 1 then (.reply (argNumErr cmdName), db, conn)
    else execMultiConn db conn
  else if cmdName = "watch" then
    if !(validateArity (-2) cmdLine) then (.reply (argNumErr cmdName), db, conn)
    else
      let r := watchCmd db conn (cmdLine.drop 1)
      (.reply r.1, db, r.2)
  else if conn.inMulti then
    let r := enqueueCmd conn cmdLine
    (.reply r.1, db, r.2)
  else
    let r := execNormalCommand db cmdLine
    (r.1, r.2, conn)

/-- The recover wrapper of `Server.Exec` (tx_utils.go lines 477-483) on
the key-space dispatch path: a panic anywhere below is converted to the
generic unknown-error reply. -/
def serverExec (db : DBState) (conn : ConnState) (cmdLine : List String) :
    Reply × DBState × ConnState :=
  match dbExec db conn cmdLine with
  | (.panicked, db2, c2) => (.unknownErr, db2, c2)
  | (.reply r, db2, c2) => (r, db2, c2)

/-! ## Facts about the database layer (claims C1, C3, C6, C7, C9, C10) -/

/-- C1: the command `EntityToCmd` produces for the one-field hash entity
{f: v} under key "h" is not `HMSET h f v`: `hashToCmd` writes the pair at
slots 0 and 1, clobbering the command name and the key and leaving the
two trailing slots nil.  Replaying the produced command against an empty
database is an unknown-command error ("f" is no command) and recreates
nothing, so the Entity-to-Command-to-Exec round trip fails for hash
entities. -/
theorem C1_hash_roundtrip_broken :
    hashToCmd "h" [("f", "v")] = [some "f", some "v", none, none] ∧
    hashToCmd "h" [("f", "v")] ≠
      [some "HMSET", some "h", some "f", some "v"] ∧
    (execWithLock ⟨[], [], [], [], 0⟩
      (optToCmd (entityToCmd "h" (.hash [("f", "v")])))).1 =
      .reply (.err "ERR unknown command 'f'") ∧
    aGet (execWithLock ⟨[], [], [], [], 0⟩
      (optToCmd (entityToCmd "h" (.hash [("f", "v")])))).2.data "h" = none :=
  ⟨by decide, by decide, rfl, by decide⟩

/-- C3: EXEC does capture undo logs, stop at the first error reply,
replay the earlier undo sequences in reverse and answer EXECABORT — but
the database does NOT return to its pre-EXEC state in general.  With
pre-state h = {f: v} and the queue [DEL h; HMSET h f v g] (the HMSET has
an even field count, a runtime syntax error), DEL's captured undo
reconstructs h through the clobbered `EntityToCmd` output, whose replay
is an unknown command; after the rollback h is gone. -/
theorem C3_exec_rollback_loses_hash_key :
    aGet (⟨[("h", .hash [("f", "v")])], [], [], [], 0⟩ : DBState).data "h" =
      some (.hash [("f", "v")]) ∧
    (dbExecMulti ⟨[("h", .hash [("f", "v")])], [], [], [], 0⟩ []
      [["del", "h"], ["hmset", "h", "f", "v", "g"]]).1 =
      .reply execAbortErr ∧
    aGet (dbExecMulti ⟨[("h", .hash [("f", "v")])], [], [], [], 0⟩ []
      [["del", "h"], ["hmset", "h", "f", "v", "g"]]).2.data "h" = none :=
  ⟨by decide, rfl, by decide⟩

/-- C6, counterexample: a connection that is InMulti still has WATCH
executed as a key-version snapshot — `DB.Exec` dispatches the watch
branch before the InMulti check, so the watch map gains ("k", 0) and the
reply is OK rather than the command being blocked or queued. -/
theorem C6_counterexample :
    (dbExec ⟨[], [], [], [], 0⟩ ⟨true, [], [], []⟩ ["watch", "k"]).2.2.inMulti
      = true ∧
    (dbExec ⟨[], [], [], [], 0⟩ ⟨true, [], [], []⟩ ["watch", "k"]).1 =
      .reply .ok ∧
    (dbExec ⟨[], [], [], [], 0⟩ ⟨true, [], [], []⟩ ["watch", "k"]).2.2.watching
      = [("k", 0)] :=
  ⟨rfl, rfl, by decide⟩

/-- C6 (amended): WATCH is executed as a key-version snapshot in every
connection state, Normal or InMulti: `DB.Exec` dispatches WATCH before
the InMulti enqueue check, records versions[k] for each argument key into
the connection's watch map, replies OK and leaves the database and the
rest of the connection untouched. -/
theorem C6_watch_snapshots_in_any_state (db : DBState) (conn : ConnState)
    (args : List String) (h : args ≠ []) :
    dbExec db conn ("watch" :: args) =
      (.reply .ok, db,
        { conn with watching :=
            args.foldl (fun w k => aPut w k (getVersion db k)) conn.watching }) := by
  have hl : 0 < args.length := List.length_pos.mpr h
  have harity : validateArity (-2) ("watch" :: args) = true := by
    simp only [validateArity]
    rw [if_neg (by norm_num)]
    simp
    omega
  simp [dbExec, strToLower, harity, watchCmd]

/-- C6, witness for the amended statement: an InMulti connection watching
one key. -/
theorem C6_watch_snapshots_witness :
    (["k"] : List String) ≠ [] ∧
    dbExec ⟨[], [], [("k", 7)], [], 0⟩ ⟨true, [], [], []⟩ ["watch", "k"] =
      (.reply .ok, ⟨[], [], [("k", 7)], [], 0⟩, ⟨true, [], [("k", 7)], []⟩) :=
  ⟨by decide, C6_watch_snapshots_in_any_state ⟨[], [], [("k", 7)], [], 0⟩
    ⟨true, [], [], []⟩ ["k"] (by decide)⟩

/-- C7: the effective arity of HGET is -3 (at least 3), not exactly 3:
hash.go registers HGet twice and `registerCommand` overwrites, so the
later -3 registration wins.  The four-token invocation HGET k f x is
accepted by the arity check and executed (here returning the value of
field f), instead of being rejected with the wrong-number-of-arguments
error before execution as the claim requires. -/
theorem C7_hget_arity_not_exact :
    effArity "hget" = -3 ∧
    validateArity (effArity "hget") ["hget", "k", "f", "x"] = true ∧
    (execNormalCommand ⟨[("k", .hash [("f", "v")])], [], [], [], 0⟩
      ["hget", "k", "f", "x"]).1 = .reply (.bulk "v") :=
  ⟨by decide, by decide, rfl⟩

lemma aGet_aDel_self {α : Type} {d : List (String × α)}
    (hnd : (aKeys d).Nodup) (k : String) : aGet (aDel d k) k = none := by
  induction d with
  | nil => rfl
  | cons p t ih =>
    obtain ⟨k1, v1⟩ := p
    rw [aKeys_cons, List.nodup_cons] at hnd
    by_cases hk : k1 = k
    · rw [aDel, if_pos hk]
      subst hk
      exact aGet_eq_none.mpr hnd.1
    · rw [aDel, if_neg hk, aGet, if_neg hk]
      exact ih hnd.2

lemma aGet_aDel_ne {α : Type} (d : List (String × α)) {k k2 : String}
    (hne : k2 ≠ k) : aGet (aDel d k) k2 = aGet d k2 := by
  induction d with
  | nil => rfl
  | cons p t ih =>
    obtain ⟨k1, v1⟩ := p
    by_cases hk : k1 = k
    · rw [aDel, if_pos hk, aGet, if_neg (hk.symm ▸ fun he => hne he.symm)]
    · by_cases hk2 : k1 = k2
      · rw [aDel, if_neg hk, aGet, if_pos hk2, aGet, if_pos hk2]
      · rw [aDel, if_neg hk, aGet, if_neg hk2, aGet, if_neg hk2]
        exact ih

lemma genExpireTask_inj {a b : String} (h : genExpireTask a = genExpireTask b) :
    a = b := by
  unfold genExpireTask at h
  have h2 : ("expire:" ++ a).data = ("expire:" ++ b).data := by rw [h]
  rw [String.data_append, String.data_append] at h2
  have h3 := List.append_cancel_left h2
  cases a
  cases b
  exact congrArg String.mk h3

/-- C9: `DB.Remove` deletes the key from the data map and the ttl map and
cancels its pending expiration task, leaves the whole version map
untouched (so versions[k] keeps its prior value, zero if never set), and
leaves every other key's data, ttl and task entries unchanged.  The
nodup hypotheses state that the maps have unique keys, as Go maps do. -/
theorem C9_remove_scope (db : DBState) (k k2 : String)
    (hd : (aKeys db.data).Nodup) (ht : (aKeys db.ttl).Nodup)
    (hne : k2 ≠ k) :
    aGet (dbRemove db k).data k = none ∧
    aGet (dbRemove db k).ttl k = none ∧
    genExpireTask k ∉ (dbRemove db k).tasks ∧
    (dbRemove db k).versions = db.versions ∧
    aGet (dbRemove db k).data k2 = aGet db.data k2 ∧
    aGet (dbRemove db k).ttl k2 = aGet db.ttl k2 ∧
    (genExpireTask k2 ∈ (dbRemove db k).tasks ↔ genExpireTask k2 ∈ db.tasks) := by
  refine ⟨aGet_aDel_self hd k, aGet_aDel_self ht k, ?_, rfl,
    aGet_aDel_ne _ hne, aGet_aDel_ne _ hne, ?_⟩
  · intro hmem
    rw [dbRemove] at hmem
    simp [twCancel] at hmem
  · rw [dbRemove]
    simp only [twCancel, List.mem_filter, decide_eq_true_eq]
    constructor
    · exact fun h1 => h1.1
    · intro h1
      exact ⟨h1, fun he => hne (genExpireTask_inj he)⟩

/-- C9, witness: a two-key database with a ttl, a version and a pending
task on the removed key. -/
theorem C9_remove_scope_witness :
    ((aKeys (⟨[("a", .str "x"), ("b", .str "y")], [("a", 5)], [("a", 2)],
        [genExpireTask "a", genExpireTask "b"], 0⟩ : DBState).data).Nodup ∧
     (aKeys (⟨[("a", .str "x"), ("b", .str "y")], [("a", 5)], [("a", 2)],
        [genExpireTask "a", genExpireTask "b"], 0⟩ : DBState).ttl).Nodup ∧
     ("b" : String) ≠ "a") ∧
    (aGet (dbRemove ⟨[("a", .str "x"), ("b", .str "y")], [("a", 5)],
        [("a", 2)], [genExpireTask "a", genExpireTask "b"], 0⟩ "a").data "a"
      = none ∧
     aGet (dbRemove ⟨[("a", .str "x"), ("b", .str "y")], [("a", 5)],
        [("a", 2)], [genExpireTask "a", genExpireTask "b"], 0⟩ "a").ttl "a"
      = none ∧
     genExpireTask "a" ∉ (dbRemove ⟨[("a", .str "x"), ("b", .str "y")],
        [("a", 5)], [("a", 2)], [genExpireTask "a", genExpireTask "b"], 0⟩
        "a").tasks ∧
     (dbRemove ⟨[("a", .str "x"), ("b", .str "y")], [("a", 5)], [("a", 2)],
        [genExpireTask "a", genExpireTask "b"], 0⟩ "a").versions =
       (⟨[("a", .str "x"), ("b", .str "y")], [("a", 5)], [("a", 2)],
        [genExpireTask "a", genExpireTask "b"], 0⟩ : DBState).versions ∧
     aGet (dbRemove ⟨[("a", .str "x"), ("b", .str "y")], [("a", 5)],
        [("a", 2)], [genExpireTask "a", genExpireTask "b"], 0⟩ "a").data "b"
      = aGet (⟨[("a", .str "x"), ("b", .str "y")], [("a", 5)], [("a", 2)],
        [genExpireTask "a", genExpireTask "b"], 0⟩ : DBState).data "b" ∧
     aGet (dbRemove ⟨[("a", .str "x"), ("b", .str "y")], [("a", 5)],
        [("a", 2)], [genExpireTask "a", genExpireTask "b"], 0⟩ "a").ttl "b"
      = aGet (⟨[("a", .str "x"), ("b", .str "y")], [("a", 5)], [("a", 2)],
        [genExpireTask "a", genExpireTask "b"], 0⟩ : DBState).ttl "b" ∧
     (genExpireTask "b" ∈ (dbRemove ⟨[("a", .str "x"), ("b", .str "y")],
        [("a", 5)], [("a", 2)], [genExpireTask "a", genExpireTask "b"], 0⟩
        "a").tasks ↔
      genExpireTask "b" ∈ (⟨[("a", .str "x"), ("b", .str "y")], [("a", 5)],
        [("a", 2)], [genExpireTask "a", genExpireTask "b"], 0⟩ :
        DBState).tasks)) :=
  ⟨⟨by decide, by decide, by decide⟩,
   C9_remove_scope ⟨[("a", .str "x"), ("b", .str "y")], [("a", 5)],
     [("a", 2)], [genExpireTask "a", genExpireTask "b"], 0⟩ "a" "b"
     (by decide) (by decide) (by decide)⟩

/-- C10: an HGET on a key with no data entry does not produce a null-bulk
reply: `getAsDict` hands back a nil dict with no error, `execHGet` calls
Get on it (a nil dereference, the panic), and the dispatcher's recover
turns that into the generic unknown-error reply. -/
theorem C10_hget_missing_key_panics (db : DBState) (conn : ConnState)
    (key field : String) (h : aGet db.data key = none)
    (hc : conn.inMulti = false) :
    execHGet db [key, field] = (.panicked, db) ∧
    serverExec db conn ["hget", key, field] = (.unknownErr, db, conn) ∧
    (serverExec db conn ["hget", key, field]).1 ≠ .nullBulk := by
  have hget : execHGet db [key, field] = (.panicked, db) := by
    simp [execHGet, getAsDict, dbGetEntity, h]
  have hnorm : execNormalCommand db ["hget", key, field] = (.panicked, db) := by
    simp only [execNormalCommand, strToLower]
    norm_num [cmdTable, validateArity, effArity, registrationArities, aPut,
      aGet, readFirstKey, addVersion]
    exact hget
  have hdb : dbExec db conn ["hget", key, field] = (.panicked, db, conn) := by
    simp [dbExec, strToLower, hc, hnorm]
  refine ⟨hget, ?_, ?_⟩
  · simp [serverExec, hdb]
  · simp [serverExec, hdb]

/-- C10, witness: the empty database. -/
theorem C10_hget_missing_key_witness :
    (aGet (⟨[], [], [], [], 0⟩ : DBState).data "k" = none ∧
     (⟨false, [], [], []⟩ : ConnState).inMulti = false) ∧
    (execHGet ⟨[], [], [], [], 0⟩ ["k", "f"] = (.panicked, ⟨[], [], [], [], 0⟩) ∧
     serverExec ⟨[], [], [], [], 0⟩ ⟨false, [], [], []⟩ ["hget", "k", "f"] =
       (.unknownErr, ⟨[], [], [], [], 0⟩, ⟨false, [], [], []⟩) ∧
     (serverExec ⟨[], [], [], [], 0⟩ ⟨false, [], [], []⟩
       ["hget", "k", "f"]).1 ≠ .nullBulk) :=
  ⟨⟨by decide, rfl⟩,
   C10_hget_missing_key_panics ⟨[], [], [], [], 0⟩ ⟨false, [], [], []⟩
     "k" "f" (by decide) rfl⟩

end GoRedis
